import Mathlib

/-!
Verification of the root-finding routines in `src/main.py`
(bisection, secant, Newton's method, forward difference quotient).

Numbers are modelled as exact rationals (`ℚ`).  A caller-supplied
evaluator is a function `ℚ → Option ℚ`, where `none` models the
evaluator raising an exception at that point; `liftF` embeds a total
(never-raising) evaluator.  A solver call is modelled as a value of
`Except PyErr (Option (ℚ × ℕ))`:
  * `.error e`        — a Python exception escapes the call,
  * `.ok none`        — the call returns `None`,
  * `.ok (some (c,n))` — the call returns the pair `(c, n)`.
-/

namespace Main

/-- Exceptions that can escape a call in `main.py`: `evalExc` is an
exception raised by a caller-supplied evaluator, `nameErr` is Python's
`UnboundLocalError` (a local variable read before assignment). -/
inductive PyErr where
  | evalExc
  | nameErr
deriving DecidableEq

/-- A total evaluator viewed as a possibly-raising evaluator that never
raises. -/
def liftF (f : ℚ → ℚ) : ℚ → Option ℚ := fun x => some (f x)

/-- The `for i in range(1, max_iter + 1)` loop of `bisection`
(src/main.py lines 112-137), with the code after the loop (return the
final midpoint paired with `max_iter`).  `i` is the number of
iterations already performed, `fuel` the number still allowed, `ca`,
`cb` the Python locals `current_a`, `current_b`; `fa` and `fb` are the
function values cached before the loop, which the loop reads but never
writes. -/
def bisectLoop (f : ℚ → Option ℚ) (fa fb eps : ℚ) :
    ℕ → ℕ → ℚ → ℚ → Except PyErr (Option (ℚ × ℕ))
  | i, 0, ca, cb => .ok (some ((ca + cb) / 2, i))
  | i, fuel + 1, ca, cb =>
    let c := (ca + cb) / 2
    match f c with
    | none => .ok none
    | some fc =>
      if |fc| < eps then .ok (some (c, i + 1))
      else if fa * fc < 0 then bisectLoop f fa fb eps (i + 1) fuel ca c
      else if fc * fb < 0 then bisectLoop f fa fb eps (i + 1) fuel c cb
      else .ok (some (c, i + 1))

/-- `bisection(a, b, f, epsilon, max_iter)` (src/main.py lines 83-137).
The two `try/except` blocks of the source appear as the `none` branches:
an evaluator exception is caught and converted to `None`. -/
def bisection (a b : ℚ) (f : ℚ → Option ℚ) (eps : ℚ) (maxIter : ℕ) :
    Except PyErr (Option (ℚ × ℕ)) :=
  if b ≤ a then .ok none
  else
    match f a with
    | none => .ok none
    | some fa =>
      match f b with
      | none => .ok none
      | some fb =>
        if 0 < fa * fb then .ok none
        else if |fa| < eps then .ok (some (a, 0))
        else if |fb| < eps then .ok (some (b, 0))
        else bisectLoop f fa fb eps 0 maxIter a b

/-- Instrumented copy of `bisectLoop` with the same control flow, used
to reason about the evolution of the loop state.  It returns the list
of `(current_a, current_b)` states at the start of every executed
iteration (and the state left when the budget is exhausted), together
with a flag that is `true` iff the final `else` branch of the loop
(src/main.py lines 132-133) is ever taken. -/
def bisectLog (f : ℚ → Option ℚ) (fa fb eps : ℚ) :
    ℕ → ℚ → ℚ → List (ℚ × ℚ) × Bool
  | 0, ca, cb => ([(ca, cb)], false)
  | fuel + 1, ca, cb =>
    let c := (ca + cb) / 2
    let rest : List (ℚ × ℚ) × Bool :=
      match f c with
      | none => ([], false)
      | some fc =>
        if |fc| < eps then ([], false)
        else if fa * fc < 0 then bisectLog f fa fb eps fuel ca c
        else if fc * fb < 0 then bisectLog f fa fb eps fuel c cb
        else ([], true)
    ((ca, cb) :: rest.1, rest.2)

/-- The `for _ in range(max_iters)` loop of `secant`
(src/main.py lines 154-177), with the final `return c, i`.  `lastC`
is the Python local `c`: `none` while it has not been assigned yet, so
reading it at the final `return` raises `UnboundLocalError`.
Evaluator exceptions are not caught and escape as `.error .evalExc`. -/
def secantLoop (f : ℚ → Option ℚ) (eps : ℚ) :
    ℕ → ℕ → ℚ → ℚ → ℚ → ℚ → Option ℚ → Except PyErr (Option (ℚ × ℕ))
  | i, 0, _, _, _, _, lastC =>
    match lastC with
    | none => .error .nameErr
    | some c => .ok (some (c, i))
  | i, fuel + 1, a, b, fa, fb, _ =>
    if fb = fa then .ok none
    else
      let c := b - fb * (b - a) / (fb - fa)
      match f c with
      | none => .error .evalExc
      | some fc =>
        if |fc| < eps ∨ |c - b| < eps then .ok (some (c, i + 1))
        else if fa * fc < 0 then secantLoop f eps (i + 1) fuel a c fa fc (some c)
        else secantLoop f eps (i + 1) fuel c b fc fb (some c)

/-- `secant(a, b, f, epsilon, max_iters)` (src/main.py lines 140-177).
The initial evaluations of `f(a)` and `f(b)` are outside any
`try/except`, so an evaluator exception escapes. -/
def secant (a b : ℚ) (f : ℚ → Option ℚ) (eps : ℚ) (maxIters : ℕ) :
    Except PyErr (Option (ℚ × ℕ)) :=
  match f a with
  | none => .error .evalExc
  | some fa =>
    match f b with
    | none => .error .evalExc
    | some fb =>
      if 0 ≤ fa * fb then .ok none
      else secantLoop f eps 0 maxIters a b fa fb none

/-- `difference_quotient(f, x, h)` (src/main.py lines 180-187). -/
def difference_quotient (f : ℚ → ℚ) (x h : ℚ) : Option ℚ :=
  if h = 0 then none
  else some ((f (x + h) - f x) / h)

/-- The starting-point selection of `newton`
(src/main.py lines 200-205), for total evaluators. -/
def newtonStart (f ddf : ℚ → ℚ) (a b : ℚ) : ℚ :=
  if 0 < f a * ddf a then a
  else if 0 < f b * ddf b then b
  else (a + b) / 2

/-- The `for _ in range(max_iter)` loop of `newton`
(src/main.py lines 208-222), with the final `return x_curr, iteration`.
`x` is the Python local `x_curr`; `i` the iterations already performed,
`fuel` the iterations still allowed.  The convergence test mirrors the
short-circuit `or` of the source: `f(x_new)` is only evaluated when the
step-size criterion fails.  Evaluator exceptions are not caught. -/
def newtonLoop (f df : ℚ → Option ℚ) (eps : ℚ) :
    ℕ → ℕ → ℚ → Except PyErr (Option (ℚ × ℕ))
  | i, 0, x => .ok (some (x, i))
  | i, fuel + 1, x =>
    match df x with
    | none => .error .evalExc
    | some d =>
      if d = 0 then .ok none
      else
        match f x with
        | none => .error .evalExc
        | some fx =>
          let xn := x - fx / d
          if |xn - x| < eps then .ok (some (xn, i + 1))
          else
            match f xn with
            | none => .error .evalExc
            | some fxn =>
              if |fxn| < eps then .ok (some (xn, i + 1))
              else newtonLoop f df eps (i + 1) fuel xn

/-- `newton(f, df, ddf, a, b, epsilon, max_iter)`
(src/main.py lines 190-222).  The starting-point selection mirrors the
short-circuit evaluation of the source: `f(b)` and `ddf(b)` are only
evaluated when the condition at `a` fails. -/
def newton (f df ddf : ℚ → Option ℚ) (a b eps : ℚ) (maxIter : ℕ) :
    Except PyErr (Option (ℚ × ℕ)) :=
  match f a with
  | none => .error .evalExc
  | some fa =>
    match ddf a with
    | none => .error .evalExc
    | some dda =>
      if 0 < fa * dda then newtonLoop f df eps 0 maxIter a
      else
        match f b with
        | none => .error .evalExc
        | some fb =>
          match ddf b with
          | none => .error .evalExc
          | some ddb =>
            if 0 < fb * ddb then newtonLoop f df eps 0 maxIter b
            else newtonLoop f df eps 0 maxIter ((a + b) / 2)

/-- Instrumented copy of `newtonLoop` for total evaluators, with the
same control flow: the list of iterates `x_curr` at which the loop
evaluates the derivative `df` (src/main.py line 211). -/
def newtonTrace (f df : ℚ → ℚ) (eps : ℚ) : ℕ → ℚ → List ℚ
  | 0, _ => []
  | fuel + 1, x =>
    x ::
      (if df x = 0 then []
       else
         let xn := x - f x / df x
         if |xn - x| < eps then []
         else if |f xn| < eps then []
         else newtonTrace f df eps fuel xn)

/-- Instrumented copy of `bisectLoop` with the same control flow:
`true` iff the loop evaluates `f` at a point where it raises
(src/main.py line 119). -/
def bisectLoopRaised (f : ℚ → Option ℚ) (fa fb eps : ℚ) :
    ℕ → ℚ → ℚ → Bool
  | 0, _, _ => false
  | fuel + 1, ca, cb =>
    let c := (ca + cb) / 2
    match f c with
    | none => true
    | some fc =>
      if |fc| < eps then false
      else if fa * fc < 0 then bisectLoopRaised f fa fb eps fuel ca c
      else if fc * fb < 0 then bisectLoopRaised f fa fb eps fuel c cb
      else false

/-- Instrumented copy of `bisection` with the same control flow:
`true` iff the call evaluates `f` at a point where it raises — at `a`,
at `b` (src/main.py lines 95-96) or at a midpoint inside the loop
(src/main.py line 119). -/
def bisectRaised (a b : ℚ) (f : ℚ → Option ℚ) (eps : ℚ)
    (maxIter : ℕ) : Bool :=
  if b ≤ a then false
  else
    match f a with
    | none => true
    | some fa =>
      match f b with
      | none => true
      | some fb =>
        if 0 < fa * fb then false
        else if |fa| < eps then false
        else if |fb| < eps then false
        else bisectLoopRaised f fa fb eps maxIter a b

/-- Instrumented copy of `secantLoop` with the same control flow:
`true` iff the loop evaluates `f` at a point where it raises
(src/main.py line 163). -/
def secantLoopRaised (f : ℚ → Option ℚ) (eps : ℚ) :
    ℕ → ℚ → ℚ → ℚ → ℚ → Bool
  | 0, _, _, _, _ => false
  | fuel + 1, a, b, fa, fb =>
    if fb = fa then false
    else
      let c := b - fb * (b - a) / (fb - fa)
      match f c with
      | none => true
      | some fc =>
        if |fc| < eps ∨ |c - b| < eps then false
        else if fa * fc < 0 then secantLoopRaised f eps fuel a c fa fc
        else secantLoopRaised f eps fuel c b fc fb

/-- Instrumented copy of `secant` with the same control flow: `true`
iff the call evaluates `f` at a point where it raises — at `a`, at `b`
(src/main.py lines 148-149) or at a secant iterate inside the loop
(src/main.py line 163). -/
def secantRaised (a b : ℚ) (f : ℚ → Option ℚ) (eps : ℚ)
    (maxIters : ℕ) : Bool :=
  match f a with
  | none => true
  | some fa =>
    match f b with
    | none => true
    | some fb =>
      if 0 ≤ fa * fb then false
      else secantLoopRaised f eps maxIters a b fa fb

/-- Instrumented copy of `newtonLoop` with the same control flow:
`true` iff the loop evaluates `df` or `f` at a point where it raises
(src/main.py lines 211, 215, 217), respecting the short-circuit `or`
of the convergence test. -/
def newtonLoopRaised (f df : ℚ → Option ℚ) (eps : ℚ) : ℕ → ℚ → Bool
  | 0, _ => false
  | fuel + 1, x =>
    match df x with
    | none => true
    | some d =>
      if d = 0 then false
      else
        match f x with
        | none => true
        | some fx =>
          let xn := x - fx / d
          if |xn - x| < eps then false
          else
            match f xn with
            | none => true
            | some fxn =>
              if |fxn| < eps then false
              else newtonLoopRaised f df eps fuel xn

/-- Instrumented copy of `newton` with the same control flow: `true`
iff the call evaluates `f`, `df` or `ddf` at a point where it raises —
during the starting-point selection (src/main.py lines 200-205, with
its short-circuit evaluation) or inside the loop (src/main.py lines
211-217). -/
def newtonRaised (f df ddf : ℚ → Option ℚ) (a b eps : ℚ)
    (maxIter : ℕ) : Bool :=
  match f a with
  | none => true
  | some fa =>
    match ddf a with
    | none => true
    | some dda =>
      if 0 < fa * dda then newtonLoopRaised f df eps maxIter a
      else
        match f b with
        | none => true
        | some fb =>
          match ddf b with
          | none => true
          | some ddb =>
            if 0 < fb * ddb then newtonLoopRaised f df eps maxIter b
            else newtonLoopRaised f df eps maxIter ((a + b) / 2)

/-! ### Sign bookkeeping helpers -/

lemma sign_flip_left {fa fb fc : ℚ} (h1 : fa * fb < 0) (h2 : fa * fc < 0) :
    0 < fc * fb := by
  nlinarith [sq_nonneg fa, sq_nonneg fb, sq_nonneg fc]

lemma sign_flip_right {fa fb fc : ℚ} (h1 : fa * fb < 0) (h2 : fc * fb < 0) :
    0 < fc * fa := by
  nlinarith [sq_nonneg fa, sq_nonneg fb, sq_nonneg fc]

/-- With a bracketing pair `fa * fb < 0` and a nonzero midpoint value,
one of the two sign tests of the bisection loop must fire: the final
`else` branch is unreachable. -/
lemma no_else_branch {fa fb fc : ℚ} (h1 : fa * fb < 0) (hc : fc ≠ 0)
    (h2 : ¬ fa * fc < 0) (h3 : ¬ fc * fb < 0) : False := by
  push_neg at h2 h3
  have hcc : 0 < fc * fc := mul_self_pos.mpr hc
  nlinarith [mul_nonneg h2 h3, hcc]

/-- A rational whose absolute value is not below a positive tolerance is
nonzero. -/
lemma ne_zero_of_not_abs_lt {x eps : ℚ} (heps : 0 < eps) (h : ¬ |x| < eps) :
    x ≠ 0 :=
  abs_pos.mp (lt_of_lt_of_le heps (not_lt.mp h))

/-- The bisection loop with a total evaluator always returns a pair,
and that pair either meets the tolerance or spends the whole budget. -/
lemma bisectLoop_total (f : ℚ → ℚ) {fa fb eps : ℚ}
    (hab : fa * fb < 0) (heps : 0 < eps) :
    ∀ fuel i ca cb, ∃ c n,
      bisectLoop (liftF f) fa fb eps i fuel ca cb = Except.ok (some (c, n)) ∧
        (|f c| < eps ∨ n = i + fuel) := by
  intro fuel
  induction fuel with
  | zero =>
    intro i ca cb
    exact ⟨(ca + cb) / 2, i, rfl, Or.inr rfl⟩
  | succ k ih =>
    intro i ca cb
    by_cases h1 : |f ((ca + cb) / 2)| < eps
    · exact ⟨(ca + cb) / 2, i + 1, by simp [bisectLoop, liftF, h1], Or.inl h1⟩
    · by_cases h2 : fa * f ((ca + cb) / 2) < 0
      · obtain ⟨c, n, heq, hn⟩ := ih (i + 1) ca ((ca + cb) / 2)
        refine ⟨c, n, by simp [bisectLoop, liftF, h1, h2, heq], ?_⟩
        rcases hn with hn | hn
        · exact Or.inl hn
        · exact Or.inr (by omega)
      · by_cases h3 : f ((ca + cb) / 2) * fb < 0
        · obtain ⟨c, n, heq, hn⟩ := ih (i + 1) ((ca + cb) / 2) cb
          refine ⟨c, n, by simp [bisectLoop, liftF, h1, h2, h3, heq], ?_⟩
          rcases hn with hn | hn
          · exact Or.inl hn
          · exact Or.inr (by omega)
        · exact (no_else_branch hab (ne_zero_of_not_abs_lt heps h1) h2 h3).elim

/-- C1: for a total evaluator, `a < b`, a bracketing pair
`f(a) * f(b) < 0`, `epsilon > 0` and `max_iter >= 1`, `bisection`
returns a pair `(c, n)` with `|f c| < epsilon` or `n = max_iter`:
it never returns `None`, never raises, and never returns a pair
violating both conditions. -/
theorem bisection_tol_or_budget (f : ℚ → ℚ) (a b eps : ℚ) (m : ℕ)
    (hab : a < b) (hsign : f a * f b < 0) (heps : 0 < eps) (hm : 1 ≤ m) :
    ∃ c n, bisection a b (liftF f) eps m = Except.ok (some (c, n)) ∧
      (|f c| < eps ∨ n = m) := by
  have hnb : ¬ b ≤ a := not_le.mpr hab
  have hns : ¬ 0 < f a * f b := lt_asymm hsign
  by_cases h1 : |f a| < eps
  · exact ⟨a, 0, by simp [bisection, liftF, hnb, hns, h1], Or.inl h1⟩
  · by_cases h2 : |f b| < eps
    · exact ⟨b, 0, by simp [bisection, liftF, hnb, hns, h1, h2], Or.inl h2⟩
    · obtain ⟨c, n, heq, hn⟩ := bisectLoop_total f hsign heps m 0 a b
      refine ⟨c, n, by simp [bisection, liftF, hnb, hns, h1, h2, heq], ?_⟩
      rcases hn with hn | hn
      · exact Or.inl hn
      · exact Or.inr (by omega)

/-- Witness for C1 at `f x = x - 1/2` on `[0, 1]`, `epsilon = 1/4`,
`max_iter = 2`. -/
theorem bisection_tol_or_budget_witness :
    ∃ c n, bisection 0 1 (liftF fun x => x - 1/2) (1/4) 2
        = Except.ok (some (c, n)) ∧
      (|(fun x : ℚ => x - 1/2) c| < 1/4 ∨ n = 2) :=
  bisection_tol_or_budget (fun x => x - 1/2) 0 1 (1/4) 2
    (by norm_num) (by norm_num) (by norm_num) (by norm_num)

/-- Core invariant of the bisection loop trace: if the cached pair
brackets (`fa * fb < 0`) and the current endpoints carry the signs of
the cached values, then every visited state does, and the final `else`
branch is never taken. -/
lemma bisectLog_sign (f : ℚ → ℚ) {fa fb eps : ℚ}
    (hab : fa * fb < 0) (heps : 0 < eps) :
    ∀ fuel ca cb, 0 < f ca * fa → 0 < f cb * fb →
      (∀ p ∈ (bisectLog (liftF f) fa fb eps fuel ca cb).1,
          0 < f p.1 * fa ∧ 0 < f p.2 * fb) ∧
        (bisectLog (liftF f) fa fb eps fuel ca cb).2 = false := by
  intro fuel
  induction fuel with
  | zero =>
    intro ca cb hca hcb
    refine ⟨?_, rfl⟩
    intro p hp
    simp only [bisectLog, List.mem_singleton] at hp
    subst hp
    exact ⟨hca, hcb⟩
  | succ k ih =>
    intro ca cb hca hcb
    by_cases h1 : |f ((ca + cb) / 2)| < eps
    · constructor
      · intro p hp
        simp only [bisectLog, liftF, h1, if_true, List.mem_singleton] at hp
        subst hp
        exact ⟨hca, hcb⟩
      · simp [bisectLog, liftF, h1]
    · by_cases h2 : fa * f ((ca + cb) / 2) < 0
      · have hmid : 0 < f ((ca + cb) / 2) * fb := sign_flip_left hab h2
        obtain ⟨hmem, hflag⟩ := ih ca ((ca + cb) / 2) hca hmid
        constructor
        · intro p hp
          simp only [bisectLog, liftF, h1, h2, if_false, if_true,
            List.mem_cons] at hp
          rcases hp with hp | hp
          · subst hp; exact ⟨hca, hcb⟩
          · exact hmem p hp
        · simp [bisectLog, liftF, h1, h2, hflag]
      · by_cases h3 : f ((ca + cb) / 2) * fb < 0
        · have hmid : 0 < f ((ca + cb) / 2) * fa := sign_flip_right hab h3
          obtain ⟨hmem, hflag⟩ := ih ((ca + cb) / 2) cb hmid hcb
          constructor
          · intro p hp
            simp only [bisectLog, liftF, h1, h2, h3, if_false, if_true,
              List.mem_cons] at hp
            rcases hp with hp | hp
            · subst hp; exact ⟨hca, hcb⟩
            · exact hmem p hp
          · simp [bisectLog, liftF, h1, h2, h3, hflag]
        · exact (no_else_branch hab (ne_zero_of_not_abs_lt heps h1) h2 h3).elim

/-- C6: with exact arithmetic, `epsilon > 0`, a bracketing pair
`f(a) * f(b) < 0` and both endpoint values at least `epsilon` in
magnitude, every state `(current_a, current_b)` visited by bisection's
loop keeps `f(current_a)` on the sign of the original `f(a)` and
`f(current_b)` on the sign of the original `f(b)` — in particular
`f(current_a) * f(current_b) < 0` throughout — and the final `else`
branch (returning `c` when neither cached-sign comparison is negative)
is never executed. -/
theorem bisection_sign_invariant (f : ℚ → ℚ) (a b eps : ℚ) (fuel : ℕ)
    (hsign : f a * f b < 0) (heps : 0 < eps)
    (ha : eps ≤ |f a|) (hb : eps ≤ |f b|) :
    (∀ p ∈ (bisectLog (liftF f) (f a) (f b) eps fuel a b).1,
        0 < f p.1 * f a ∧ 0 < f p.2 * f b ∧ f p.1 * f p.2 < 0) ∧
      (bisectLog (liftF f) (f a) (f b) eps fuel a b).2 = false := by
  have hfa : f a ≠ 0 := by
    rcases mul_ne_zero_iff.mp (ne_of_lt hsign) with ⟨h, _⟩; exact h
  have hfb : f b ≠ 0 := by
    rcases mul_ne_zero_iff.mp (ne_of_lt hsign) with ⟨_, h⟩; exact h
  obtain ⟨hmem, hflag⟩ := bisectLog_sign f hsign heps fuel a b
    (mul_self_pos.mpr hfa) (mul_self_pos.mpr hfb)
  refine ⟨fun p hp => ?_, hflag⟩
  obtain ⟨h1, h2⟩ := hmem p hp
  exact ⟨h1, h2, by nlinarith⟩

/-- Witness for C6 at `f x = x - 1/2` on `[0, 1]`, `epsilon = 1/4`,
two loop iterations. -/
theorem bisection_sign_invariant_witness :
    (∀ p ∈ (bisectLog (liftF fun x => x - 1/2) ((fun x : ℚ => x - 1/2) 0)
        ((fun x : ℚ => x - 1/2) 1) (1/4) 2 0 1).1,
        0 < (fun x : ℚ => x - 1/2) p.1 * (fun x : ℚ => x - 1/2) 0 ∧
        0 < (fun x : ℚ => x - 1/2) p.2 * (fun x : ℚ => x - 1/2) 1 ∧
        (fun x : ℚ => x - 1/2) p.1 * (fun x : ℚ => x - 1/2) p.2 < 0) ∧
      (bisectLog (liftF fun x => x - 1/2) ((fun x : ℚ => x - 1/2) 0)
        ((fun x : ℚ => x - 1/2) 1) (1/4) 2 0 1).2 = false :=
  bisection_sign_invariant (fun x => x - 1/2) 0 1 (1/4) 2
    (by norm_num) (by norm_num) (by norm_num [abs_of_pos]) (by norm_num [abs_of_pos])

/-- The trace of the bisection loop always starts with the state the
loop was entered in. -/
lemma bisectLog_head (f : ℚ → Option ℚ) (fa fb eps : ℚ) :
    ∀ fuel ca cb,
      ((bisectLog f fa fb eps fuel ca cb).1).head? = some (ca, cb) := by
  intro fuel ca cb
  cases fuel <;> simp [bisectLog]

/-- C2 counterexample: running bisection's loop on `f x = x - 3/4` over
`[0, 1]` (so `f(a) = -3/4`, `f(b) = 1/4`) with `epsilon = 1/100` and one
iteration, the loop state goes from `(0, 1)` to `(1/2, 1)`: the lower
endpoint `current_a` is updated to the midpoint `1/2 ≠ 0`, refuting
"only the upper endpoint b is ever updated". -/
theorem bisection_updates_lower_endpoint :
    (bisectLog (liftF fun x => x - 3/4) ((0:ℚ) - 3/4) ((1:ℚ) - 3/4)
        (1/100) 1 0 1).1 = [(0, 1), (1/2, 1)] ∧ ((1:ℚ)/2 ≠ 0) := by
  constructor
  · norm_num [bisectLog, liftF, abs_lt]
  · norm_num

/-- C2 amended: across the iterations of bisection's loop, each
executed iteration updates exactly one endpoint to the current
midpoint — `current_b` when `f(a)*f(c) < 0`, and `current_a` when
`f(c)*f(b) < 0` — while the cached values `f(a)`, `f(b)` (the `fa`,
`fb` parameters threaded unchanged through `bisectLog`) are never
recomputed, so every sign comparison uses the original `f(a)` and
`f(b)`. -/
theorem bisection_one_endpoint_per_step (f : ℚ → Option ℚ)
    (fa fb eps : ℚ) (fuel : ℕ) (ca cb : ℚ) :
    List.Chain'
      (fun p q : ℚ × ℚ => (q.1 = p.1 ∧ q.2 = (p.1 + p.2) / 2) ∨
        (q.1 = (p.1 + p.2) / 2 ∧ q.2 = p.2))
      (bisectLog f fa fb eps fuel ca cb).1 := by
  induction fuel generalizing ca cb with
  | zero => simp [bisectLog]
  | succ k ih =>
    cases hfc : f ((ca + cb) / 2) with
    | none => simp [bisectLog, hfc]
    | some fc =>
      by_cases h1 : |fc| < eps
      · simp [bisectLog, hfc, h1]
      · by_cases h2 : fa * fc < 0
        · have hgoal : (bisectLog f fa fb eps (k + 1) ca cb).1
              = (ca, cb) :: (bisectLog f fa fb eps k ca ((ca + cb) / 2)).1 := by
            simp [bisectLog, hfc, h1, h2]
          rw [hgoal, List.chain'_cons']
          refine ⟨?_, ih ca ((ca + cb) / 2)⟩
          intro q hq
          rw [bisectLog_head] at hq
          simp only [Option.mem_def, Option.some_inj] at hq
          subst hq
          exact Or.inl ⟨rfl, rfl⟩
        · by_cases h3 : fc * fb < 0
          · have hgoal : (bisectLog f fa fb eps (k + 1) ca cb).1
                = (ca, cb) :: (bisectLog f fa fb eps k ((ca + cb) / 2) cb).1 := by
              simp [bisectLog, hfc, h1, h2, h3]
            rw [hgoal, List.chain'_cons']
            refine ⟨?_, ih ((ca + cb) / 2) cb⟩
            intro q hq
            rw [bisectLog_head] at hq
            simp only [Option.mem_def, Option.some_inj] at hq
            subst hq
            exact Or.inr ⟨rfl, rfl⟩
          · simp [bisectLog, hfc, h1, h2, h3]

/-- The bisection loop never lets an exception escape: every branch,
including an evaluator failure at the midpoint, produces a `return`. -/
lemma bisectLoop_no_error (f : ℚ → Option ℚ) (fa fb eps : ℚ) :
    ∀ fuel i ca cb, ∃ r,
      bisectLoop f fa fb eps i fuel ca cb = Except.ok r := by
  intro fuel
  induction fuel with
  | zero => intro i ca cb; exact ⟨some ((ca + cb) / 2, i), rfl⟩
  | succ k ih =>
    intro i ca cb
    cases hfc : f ((ca + cb) / 2) with
    | none => exact ⟨none, by simp [bisectLoop, hfc]⟩
    | some fc =>
      by_cases h1 : |fc| < eps
      · exact ⟨some ((ca + cb) / 2, i + 1), by simp [bisectLoop, hfc, h1]⟩
      · by_cases h2 : fa * fc < 0
        · obtain ⟨r, hr⟩ := ih (i + 1) ca ((ca + cb) / 2)
          exact ⟨r, by simp [bisectLoop, hfc, h1, h2, hr]⟩
        · by_cases h3 : fc * fb < 0
          · obtain ⟨r, hr⟩ := ih (i + 1) ((ca + cb) / 2) cb
            exact ⟨r, by simp [bisectLoop, hfc, h1, h2, h3, hr]⟩
          · exact ⟨some ((ca + cb) / 2, i + 1), by simp [bisectLoop, hfc, h1, h2, h3]⟩

/-- If the bisection loop evaluates `f` at a raising point, the caught
exception makes it return `None`. -/
lemma bisectLoop_raised_none (f : ℚ → Option ℚ) (fa fb eps : ℚ) :
    ∀ fuel i ca cb, bisectLoopRaised f fa fb eps fuel ca cb = true →
      bisectLoop f fa fb eps i fuel ca cb = Except.ok none := by
  intro fuel
  induction fuel with
  | zero => intro i ca cb h; simp [bisectLoopRaised] at h
  | succ k ih =>
    intro i ca cb h
    cases hfc : f ((ca + cb) / 2) with
    | none => simp [bisectLoop, hfc]
    | some fc =>
      by_cases h1 : |fc| < eps
      · simp [bisectLoopRaised, hfc, h1] at h
      · by_cases h2 : fa * fc < 0
        · have hr := ih (i + 1) ca ((ca + cb) / 2)
            (by simpa [bisectLoopRaised, hfc, h1, h2] using h)
          simp [bisectLoop, hfc, h1, h2, hr]
        · by_cases h3 : fc * fb < 0
          · have hr := ih (i + 1) ((ca + cb) / 2) cb
              (by simpa [bisectLoopRaised, hfc, h1, h2, h3] using h)
            simp [bisectLoop, hfc, h1, h2, h3, hr]
          · simp [bisectLoopRaised, hfc, h1, h2, h3] at h

/-- Whenever a `bisection` run evaluates `f` at a raising point — at
an endpoint or at any in-loop midpoint — it returns `None`. -/
lemma bisection_raised_none (a b : ℚ) (f : ℚ → Option ℚ) (eps : ℚ)
    (m : ℕ) (h : bisectRaised a b f eps m = true) :
    bisection a b f eps m = Except.ok none := by
  by_cases hba : b ≤ a
  · simp [bisection, hba]
  · cases hfa : f a with
    | none => simp [bisection, hba, hfa]
    | some fa =>
      cases hfb : f b with
      | none => simp [bisection, hba, hfa, hfb]
      | some fb =>
        by_cases h0 : 0 < fa * fb
        · simp [bisectRaised, hba, hfa, hfb, h0] at h
        · by_cases h1 : |fa| < eps
          · simp [bisectRaised, hba, hfa, hfb, h0, h1] at h
          · by_cases h2 : |fb| < eps
            · simp [bisectRaised, hba, hfa, hfb, h0, h1, h2] at h
            · have hr := bisectLoop_raised_none f fa fb eps m 0 a b
                (by simpa [bisectRaised, hba, hfa, hfb, h0, h1, h2] using h)
              simp [bisection, hba, hfa, hfb, h0, h1, h2, hr]

/-- The secant loop raises exactly when it evaluates `f` at a raising
point; the `UnboundLocalError` at exhaustion is a different exception. -/
lemma secantLoop_error_iff (f : ℚ → Option ℚ) (eps : ℚ) :
    ∀ fuel i a b fa fb lastC,
      (secantLoop f eps i fuel a b fa fb lastC = Except.error PyErr.evalExc ↔
        secantLoopRaised f eps fuel a b fa fb = true) := by
  intro fuel
  induction fuel with
  | zero =>
    intro i a b fa fb lastC
    cases lastC <;> simp [secantLoop, secantLoopRaised]
  | succ k ih =>
    intro i a b fa fb lastC
    by_cases hd : fb = fa
    · simp [secantLoop, secantLoopRaised, hd]
    · cases hfc : f (b - fb * (b - a) / (fb - fa)) with
      | none => simp [secantLoop, secantLoopRaised, hd, hfc]
      | some fc =>
        by_cases hcv : |fc| < eps ∨ |fb * (b - a) / (fb - fa)| < eps
        · simp [secantLoop, secantLoopRaised, hd, hfc, hcv]
        · by_cases hs : fa * fc < 0
          · simp [secantLoop, secantLoopRaised, hd, hfc, hcv, hs, ih]
          · simp [secantLoop, secantLoopRaised, hd, hfc, hcv, hs, ih]

/-- `secant` raises an evaluator exception exactly when its run
evaluates `f` at a raising point — at `a`, at `b`, or at any in-loop
secant iterate. -/
lemma secant_error_iff (a b : ℚ) (f : ℚ → Option ℚ) (eps : ℚ)
    (m : ℕ) :
    secant a b f eps m = Except.error PyErr.evalExc ↔
      secantRaised a b f eps m = true := by
  cases hfa : f a with
  | none => simp [secant, secantRaised, hfa]
  | some fa =>
    cases hfb : f b with
    | none => simp [secant, secantRaised, hfa, hfb]
    | some fb =>
      by_cases h0 : 0 ≤ fa * fb
      · simp [secant, secantRaised, hfa, hfb, h0]
      · simp [secant, secantRaised, hfa, hfb, h0, secantLoop_error_iff]

/-- The Newton loop raises exactly when it evaluates `df` or `f` at a
raising point (respecting the short-circuit convergence test). -/
lemma newtonLoop_error_iff (f df : ℚ → Option ℚ) (eps : ℚ) :
    ∀ fuel i x,
      (newtonLoop f df eps i fuel x = Except.error PyErr.evalExc ↔
        newtonLoopRaised f df eps fuel x = true) := by
  intro fuel
  induction fuel with
  | zero => intro i x; simp [newtonLoop, newtonLoopRaised]
  | succ k ih =>
    intro i x
    cases hdx : df x with
    | none => simp [newtonLoop, newtonLoopRaised, hdx]
    | some d =>
      by_cases hd : d = 0
      · simp [newtonLoop, newtonLoopRaised, hdx, hd]
      · cases hfx : f x with
        | none => simp [newtonLoop, newtonLoopRaised, hdx, hd, hfx]
        | some fx =>
          by_cases h1 : |fx / d| < eps
          · simp [newtonLoop, newtonLoopRaised, hdx, hd, hfx, h1]
          · cases hfxn : f (x - fx / d) with
            | none =>
              simp [newtonLoop, newtonLoopRaised, hdx, hd, hfx, h1, hfxn]
            | some fxn =>
              by_cases h2 : |fxn| < eps
              · simp [newtonLoop, newtonLoopRaised, hdx, hd, hfx, h1,
                  hfxn, h2]
              · simp [newtonLoop, newtonLoopRaised, hdx, hd, hfx, h1,
                  hfxn, h2, ih]

/-- `newton` raises an evaluator exception exactly when its run
evaluates `f`, `df` or `ddf` at a raising point — during the
starting-point selection or at any in-loop iterate. -/
lemma newton_error_iff (f df ddf : ℚ → Option ℚ) (a b eps : ℚ)
    (m : ℕ) :
    newton f df ddf a b eps m = Except.error PyErr.evalExc ↔
      newtonRaised f df ddf a b eps m = true := by
  cases hfa : f a with
  | none => simp [newton, newtonRaised, hfa]
  | some fa =>
    cases hdda : ddf a with
    | none => simp [newton, newtonRaised, hfa, hdda]
    | some dda =>
      by_cases h0 : 0 < fa * dda
      · simp [newton, newtonRaised, hfa, hdda, h0, newtonLoop_error_iff]
      · cases hfb : f b with
        | none => simp [newton, newtonRaised, hfa, hdda, h0, hfb]
        | some fb =>
          cases hddb : ddf b with
          | none => simp [newton, newtonRaised, hfa, hdda, h0, hfb, hddb]
          | some ddb =>
            by_cases h1 : 0 < fb * ddb
            · simp [newton, newtonRaised, hfa, hdda, h0, hfb, hddb, h1,
                newtonLoop_error_iff]
            · simp [newton, newtonRaised, hfa, hdda, h0, hfb, hddb, h1,
                newtonLoop_error_iff]

/-- C3: `bisection` never lets an evaluator exception escape — every
call returns, and whenever its run evaluates `f` at a point where `f`
raises (an endpoint or any in-loop midpoint, `bisectRaised`) it
catches the exception and returns `None` — whereas `secant` and
`newton` do not catch evaluator exceptions: each raises exactly when
its run evaluates a caller-supplied function at a raising point
(initial points or any in-loop iterate, `secantRaised` /
`newtonRaised`). -/
theorem bisection_catches_secant_newton_propagate :
    (∀ a b (f : ℚ → Option ℚ) eps m, ∃ r,
        bisection a b f eps m = Except.ok r) ∧
    (∀ a b (f : ℚ → Option ℚ) eps m, bisectRaised a b f eps m = true →
        bisection a b f eps m = Except.ok none) ∧
    (∀ a b (f : ℚ → Option ℚ) eps m,
        secant a b f eps m = Except.error PyErr.evalExc ↔
          secantRaised a b f eps m = true) ∧
    (∀ (f df ddf : ℚ → Option ℚ) a b eps m,
        newton f df ddf a b eps m = Except.error PyErr.evalExc ↔
          newtonRaised f df ddf a b eps m = true) := by
  refine ⟨?_, bisection_raised_none, secant_error_iff, newton_error_iff⟩
  intro a b f eps m
  by_cases hba : b ≤ a
  · exact ⟨none, by simp [bisection, hba]⟩
  · cases hfa : f a with
    | none => exact ⟨none, by simp [bisection, hba, hfa]⟩
    | some fa =>
      cases hfb : f b with
      | none => exact ⟨none, by simp [bisection, hba, hfa, hfb]⟩
      | some fb =>
        by_cases h0 : 0 < fa * fb
        · exact ⟨none, by simp [bisection, hba, hfa, hfb, h0]⟩
        · by_cases h1 : |fa| < eps
          · exact ⟨some (a, 0), by simp [bisection, hba, hfa, hfb, h0, h1]⟩
          · by_cases h2 : |fb| < eps
            · exact ⟨some (b, 0),
                by simp [bisection, hba, hfa, hfb, h0, h1, h2]⟩
            · obtain ⟨r, hr⟩ := bisectLoop_no_error f fa fb eps m 0 a b
              exact ⟨r, by simp [bisection, hba, hfa, hfb, h0, h1, h2, hr]⟩

/-- Witness for C3 at an evaluator that is fine at the endpoints `0`
and `1` but raises at `1/2` (bisection's first midpoint) and at `1/3`
(secant's first iterate, and newton's first Newton update): the raise
at an in-loop point is caught by bisection and propagated by secant
and newton. -/
theorem bisection_catches_secant_newton_propagate_witness :
    bisection 0 1
        (fun x => if x = 1/2 ∨ x = 1/3 then none else some (x - 1/3))
        (1/10) 3
      = Except.ok none ∧
    secant 0 1
        (fun x => if x = 1/2 ∨ x = 1/3 then none else some (x - 1/3))
        (1/10) 3
      = Except.error PyErr.evalExc ∧
    newton
        (fun x => if x = 1/2 ∨ x = 1/3 then none else some (x - 1/3))
        (fun _ => some 1) (fun _ => some 1) 0 1 (1/10) 3
      = Except.error PyErr.evalExc :=
  ⟨bisection_catches_secant_newton_propagate.2.1 0 1
      (fun x => if x = 1/2 ∨ x = 1/3 then none else some (x - 1/3))
      (1/10) 3
      (by norm_num [bisectRaised, bisectLoopRaised, abs_lt]),
   (bisection_catches_secant_newton_propagate.2.2.1 0 1
      (fun x => if x = 1/2 ∨ x = 1/3 then none else some (x - 1/3))
      (1/10) 3).mpr
      (by norm_num [secantRaised, secantLoopRaised, abs_lt]),
   (bisection_catches_secant_newton_propagate.2.2.2
      (fun x => if x = 1/2 ∨ x = 1/3 then none else some (x - 1/3))
      (fun _ => some 1) (fun _ => some 1) 0 1 (1/10) 3).mpr
      (by norm_num [newtonRaised, newtonLoopRaised, abs_lt])⟩

/-- C4 counterexample: `secant(0, 1, f, 1, 0)` with `f x = x - 1/2`
passes the sign-change check (`f(0)*f(1) = -1/4 < 0`), the loop body
never runs, and the final `return c, i` reads the never-assigned local
`c`: the call raises `UnboundLocalError` instead of returning a pair. -/
theorem secant_zero_budget_unbound :
    secant 0 1 (liftF fun x => x - 1/2) 1 0 = Except.error PyErr.nameErr := by
  norm_num [secant, secantLoop, liftF]

/-- Once the loop has assigned `c` at least once, or at least one
iteration remains, the secant loop with a total evaluator returns
(no exception escapes). -/
lemma secantLoop_no_error (f : ℚ → ℚ) (eps : ℚ) :
    ∀ fuel i a b fa fb lastC, (lastC.isSome ∨ 1 ≤ fuel) →
      ∃ r, secantLoop (liftF f) eps i fuel a b fa fb lastC = Except.ok r := by
  intro fuel
  induction fuel with
  | zero =>
    intro i a b fa fb lastC h
    rcases h with h | h
    · obtain ⟨c, hc⟩ := Option.isSome_iff_exists.mp h
      exact ⟨some (c, i), by simp [secantLoop, hc]⟩
    · omega
  | succ k ih =>
    intro i a b fa fb lastC _
    by_cases hd : fb = fa
    · exact ⟨none, by simp [secantLoop, hd]⟩
    · by_cases hcv : |f (b - fb * (b - a) / (fb - fa))| < eps ∨
          |fb * (b - a) / (fb - fa)| < eps
      · exact ⟨some (b - fb * (b - a) / (fb - fa), i + 1),
          by simp [secantLoop, liftF, hd, hcv]⟩
      · by_cases hs : fa * f (b - fb * (b - a) / (fb - fa)) < 0
        · obtain ⟨r, hr⟩ := ih (i + 1) a (b - fb * (b - a) / (fb - fa))
            fa (f (b - fb * (b - a) / (fb - fa)))
            (some (b - fb * (b - a) / (fb - fa))) (Or.inl rfl)
          exact ⟨r, by simp [secantLoop, liftF, hd, hcv, hs, hr]⟩
        · obtain ⟨r, hr⟩ := ih (i + 1) (b - fb * (b - a) / (fb - fa)) b
            (f (b - fb * (b - a) / (fb - fa))) fb
            (some (b - fb * (b - a) / (fb - fa))) (Or.inl rfl)
          exact ⟨r, by simp [secantLoop, liftF, hd, hcv, hs, hr]⟩

/-- C4 amended (the claim fails at `max_iters = 0`, where the final
`return c, i` raises `UnboundLocalError`): for `max_iters ≥ 1` and a
total evaluator, `secant` never raises, and whenever the loop exhausts
its budget after having computed an iterate `c` it returns the last
computed pair `(c, i)` unconditionally — never an error and never
`None` in that case. -/
theorem secant_exhaustion_returns_last (f : ℚ → ℚ) (a b eps : ℚ)
    (m : ℕ) (hm : 1 ≤ m) :
    (∃ r, secant a b (liftF f) eps m = Except.ok r) ∧
    (∀ i a2 b2 fa2 fb2 c,
        secantLoop (liftF f) eps i 0 a2 b2 fa2 fb2 (some c)
          = Except.ok (some (c, i))) := by
  constructor
  · by_cases hs : 0 ≤ f a * f b
    · exact ⟨none, by simp [secant, liftF, hs]⟩
    · obtain ⟨r, hr⟩ := secantLoop_no_error f eps m 0 a b (f a) (f b)
        none (Or.inr hm)
      exact ⟨r, by simp [secant, liftF, hs, hr]⟩
  · intro i a2 b2 fa2 fb2 c
    rfl

/-- Witness for C4's amended claim at `f x = x - 1/2`, `max_iters = 1`. -/
theorem secant_exhaustion_returns_last_witness :
    (∃ r, secant 0 1 (liftF fun x => x - 1/2) (1/4) 1 = Except.ok r) ∧
    (secantLoop (liftF fun x => x - 1/2) (1/4) 5 0 3 4 1 2 (some 7)
      = Except.ok (some (7, 5))) :=
  ⟨(secant_exhaustion_returns_last (fun x => x - 1/2) 0 1 (1/4) 1
      (by norm_num)).1,
   (secant_exhaustion_returns_last (fun x => x - 1/2) 0 1 (1/4) 1
      (by norm_num)).2 5 3 4 1 2 7⟩

/-- For total evaluators, `newton` is the Newton loop started at the
point chosen by the convexity heuristic. -/
lemma newton_total_eq_loop_start (f df ddf : ℚ → ℚ) (a b eps : ℚ)
    (m : ℕ) :
    newton (liftF f) (liftF df) (liftF ddf) a b eps m
      = newtonLoop (liftF f) (liftF df) eps 0 m (newtonStart f ddf a b) := by
  simp only [newton, newtonStart, liftF]
  split_ifs <;> rfl

/-- For total evaluators, the Newton loop returns `None` exactly when
the derivative vanishes at one of the iterates at which the loop
evaluates it. -/
lemma newtonLoop_none_iff (f df : ℚ → ℚ) (eps : ℚ) :
    ∀ fuel i x,
      (newtonLoop (liftF f) (liftF df) eps i fuel x = Except.ok none ↔
        ∃ y ∈ newtonTrace f df eps fuel x, df y = 0) := by
  intro fuel
  induction fuel with
  | zero => intro i x; simp [newtonLoop, newtonTrace]
  | succ k ih =>
    intro i x
    by_cases hd : df x = 0
    · simp [newtonLoop, newtonTrace, liftF, hd]
    · by_cases h1 : |f x / df x| < eps
      · simp [newtonLoop, newtonTrace, liftF, hd, h1]
      · by_cases h2 : |f (x - f x / df x)| < eps
        · simp [newtonLoop, newtonTrace, liftF, hd, h1, h2]
        · rw [show newtonLoop (liftF f) (liftF df) eps i (k + 1) x
              = newtonLoop (liftF f) (liftF df) eps (i + 1) k
                  (x - f x / df x) by
            simp [newtonLoop, liftF, hd, h1, h2]]
          rw [ih (i + 1) (x - f x / df x)]
          simp [newtonTrace, hd, h1, h2]

/-- C5: for total evaluators, `newton` returns `None` exactly when the
derivative `df` evaluates to `0` at one of the iterates the loop
reaches (the points of `newtonTrace`); `None` is returned in no other
case. -/
theorem newton_none_iff_zero_derivative (f df ddf : ℚ → ℚ)
    (a b eps : ℚ) (m : ℕ) :
    newton (liftF f) (liftF df) (liftF ddf) a b eps m = Except.ok none ↔
      ∃ y ∈ newtonTrace f df eps m (newtonStart f ddf a b), df y = 0 := by
  rw [newton_total_eq_loop_start, newtonLoop_none_iff]

/-- C7: `newton` runs its loop from the starting point selected by the
convexity heuristic: `a` if `f(a)*ddf(a) > 0`; else `b` if
`f(b)*ddf(b) > 0`; else the midpoint `(a+b)/2`. -/
theorem newton_start_selection (f df ddf : ℚ → ℚ) (a b eps : ℚ)
    (m : ℕ) :
    newton (liftF f) (liftF df) (liftF ddf) a b eps m
      = newtonLoop (liftF f) (liftF df) eps 0 m (newtonStart f ddf a b) ∧
    (0 < f a * ddf a → newtonStart f ddf a b = a) ∧
    (¬ 0 < f a * ddf a → 0 < f b * ddf b → newtonStart f ddf a b = b) ∧
    (¬ 0 < f a * ddf a → ¬ 0 < f b * ddf b →
      newtonStart f ddf a b = (a + b) / 2) := by
  refine ⟨newton_total_eq_loop_start f df ddf a b eps m, ?_, ?_, ?_⟩
  · intro h; simp [newtonStart, h]
  · intro h1 h2; simp [newtonStart, h1, h2]
  · intro h1 h2; simp [newtonStart, h1, h2]

/-- Witness for C7: each branch of the starting-point selection at a
concrete input. -/
theorem newton_start_selection_witness :
    newtonStart (fun x => x) (fun _ => 1) 1 2 = 1 ∧
    newtonStart (fun x => x) (fun _ => 1) (-2) 1 = 1 ∧
    newtonStart (fun x => x) (fun _ => 1) (-2) (-1) = (-2 + -1) / 2 :=
  ⟨(newton_start_selection (fun x => x) (fun _ => 1) (fun _ => 1)
      1 2 1 1).2.1 (by norm_num),
   (newton_start_selection (fun x => x) (fun _ => 1) (fun _ => 1)
      (-2) 1 1 1).2.2.1 (by norm_num) (by norm_num),
   (newton_start_selection (fun x => x) (fun _ => 1) (fun _ => 1)
      (-2) (-1) 1 1).2.2.2 (by norm_num) (by norm_num)⟩

/-- C8: `difference_quotient` returns `None` when `h = 0` (without
raising), and otherwise returns exactly `(f(x+h) - f(x)) / h`. -/
theorem difference_quotient_spec (f : ℚ → ℚ) (x h : ℚ) :
    (h = 0 → difference_quotient f x h = none) ∧
    (h ≠ 0 → difference_quotient f x h = some ((f (x + h) - f x) / h)) := by
  constructor
  · intro h0; simp [difference_quotient, h0]
  · intro h0; simp [difference_quotient, h0]

/-- Witness for C8 at `f x = x^2`, `x = 2`, steps `0` and `1`. -/
theorem difference_quotient_spec_witness :
    difference_quotient (fun x => x * x) 2 0 = none ∧
    difference_quotient (fun x => x * x) 2 1 = some 5 := by
  refine ⟨(difference_quotient_spec (fun x => x * x) 2 0).1 rfl, ?_⟩
  have h := (difference_quotient_spec (fun x => x * x) 2 1).2 (by norm_num)
  rw [h]
  norm_num

/-- C9: with `max_iter = 0`, `newton` returns the selected starting
point paired with iteration count `0`; it never returns `None` and
never evaluates `df` (the theorem holds for an arbitrary, even
always-raising, derivative evaluator `df`). -/
theorem newton_zero_iters_returns_start (f ddf : ℚ → ℚ)
    (df : ℚ → Option ℚ) (a b eps : ℚ) :
    newton (liftF f) df (liftF ddf) a b eps 0
      = Except.ok (some (newtonStart f ddf a b, 0)) := by
  simp only [newton, newtonStart, newtonLoop, liftF]
  split_ifs <;> rfl

/-- C10: each solver's result is a pure function of its arguments: it
depends only on the input-output behaviour of the supplied evaluators,
so two calls with identical inputs yield identical output (there is no
hidden state). -/
theorem solvers_extensional (f g df dg ddf ddg : ℚ → Option ℚ)
    (hf : ∀ x, f x = g x) (hdf : ∀ x, df x = dg x)
    (hddf : ∀ x, ddf x = ddg x) (a b eps : ℚ) (m : ℕ) :
    bisection a b f eps m = bisection a b g eps m ∧
    secant a b f eps m = secant a b g eps m ∧
    newton f df ddf a b eps m = newton g dg ddg a b eps m := by
  have h1 : f = g := funext hf
  have h2 : df = dg := funext hdf
  have h3 : ddf = ddg := funext hddf
  subst h1
  subst h2
  subst h3
  exact ⟨rfl, rfl, rfl⟩

/-- Witness for C10 at `f x = x` on concrete arguments. -/
theorem solvers_extensional_witness :
    bisection 0 1 (liftF fun x => x) 1 1
        = bisection 0 1 (liftF fun x => x) 1 1 ∧
    secant 0 1 (liftF fun x => x) 1 1
        = secant 0 1 (liftF fun x => x) 1 1 ∧
    newton (liftF fun x => x) (liftF fun x => x) (liftF fun x => x)
        0 1 1 1
      = newton (liftF fun x => x) (liftF fun x => x) (liftF fun x => x)
        0 1 1 1 :=
  solvers_extensional _ _ _ _ _ _ (fun _ => rfl) (fun _ => rfl)
    (fun _ => rfl) 0 1 1 1

end Main
